import Mathlib

/-!
Shallow embedding of `src/csim.c`, a trace-driven set-associative LRU cache
simulator, together with proofs of the specification claims about it.

The C program keeps each cache set as a singly linked list of `cache_line_t`
nodes (fields `valid` and `tag`; the `next` pointer is the list structure).
We embed a set as a `List CacheLine` and translate each loop of `accessData`
into a structurally recursive function mirroring the pointer walk.
Machine integers (`mem_addr_t` = unsigned long long) are embedded as `Nat`,
with `% 2 ^ 64` written where C wraparound matters.
-/

/-- One cache line: the `valid` and `tag` fields of `cache_line_t`
(src/csim.c lines 56-60); the `next` pointer is the enclosing list. -/
structure CacheLine where
  valid : Bool
  tag : Nat
deriving DecidableEq, Repr

/-- A line as first created by `initCache` (valid and tag both 0). -/
def initLine : CacheLine := ⟨false, 0⟩

/-- One set as built by `initCache` (src/csim.c lines 87-115): a first line
plus `E - 1` further lines, all with valid and tag 0. -/
def initSet (E : Nat) : List CacheLine :=
  initLine :: List.replicate (E - 1) initLine

/-- The whole cache as built by `initCache` (src/csim.c lines 76-117):
`S = 2 ^ s` sets. -/
def initCache (s E : Nat) : List (List CacheLine) :=
  List.replicate (2 ^ s) (initSet E)

/-- The set index computed at src/csim.c lines 150-156:
`mask = ((1 << s) - 1) << b`, `s_bits = (mask & addr) >> b`. -/
def setIndexOf (s b addr : Nat) : Nat :=
  (((1 <<< s) - 1) <<< b &&& addr) >>> b

/-- The tag computed at src/csim.c line 159: `t_bits = addr >> (s + b)`. -/
def tagOf (s b addr : Nat) : Nat :=
  addr >>> (s + b)

/-- The hit-search loop of `accessData` (src/csim.c lines 174-211).
The list argument is the chain starting at the node `line` points to; the
counter argument is the variable `e` (initially `E`).  While `e > 1` the C
loop examines `line->next`: on a valid line with the sought tag it splices
that node out (to be reattached at the front by the caller) and stops;
otherwise it advances `line` and decrements `e`. -/
def loopScan (t : Nat) : Nat → List CacheLine → Option (CacheLine × List CacheLine)
  | e, l :: ln :: rest =>
    if 1 < e then
      if t = ln.tag ∧ ln.valid = true then
        some (ln, l :: rest)
      else
        match loopScan t (e - 1) (ln :: rest) with
        | some (m, r) => some (m, l :: r)
        | none => none
    else none
  | _, _ => none

/-- The miss-path walk and its three terminal branches (src/csim.c lines
215-259), entered with `check` at the (valid) head of the set.  The walk
advances while `check->next` is valid and is not the last node.  It then
either splices out the invalid node `check->next` (returned as the moved,
refilled line, eviction 0), or — when `check->next` is the valid last node —
evicts it (moved line, eviction 1), or — when `check` has no successor at
all — refills `check` in place with an eviction.  Returns the chain from
`check` after surgery, the line to be put at the front (if any), and the
eviction increment. -/
def missScan (t : Nat) : List CacheLine → List CacheLine × Option CacheLine × Nat
  | [] => ([], none, 0)
  | [_] => ([⟨true, t⟩], none, 1)
  | c :: n :: rest =>
    if n.valid = true ∧ rest ≠ [] then
      let r := missScan t (n :: rest)
      (c :: r.1, r.2.1, r.2.2)
    else if n.valid = false then
      (c :: rest, some ⟨true, t⟩, 0)
    else
      ([c], some ⟨true, t⟩, 1)

/-- The whole miss path of `accessData` (src/csim.c lines 214-260): if the
head line is invalid it is refilled in place (the `e == 0` branch);
otherwise `missScan` walks the chain and the moved line, if any, becomes
the new head.  Returns the new set and the eviction increment. -/
def missInsert (t : Nat) : List CacheLine → List CacheLine × Nat
  | [] => ([], 0)
  | c :: rest =>
    if c.valid = false then (⟨true, t⟩ :: rest, 0)
    else
      let r := missScan t (c :: rest)
      match r.2.1 with
      | some m => (m :: r.1, r.2.2)
      | none => (r.1, r.2.2)

/-- Result of servicing one access against one set: the new set contents and
the increments applied to `hit_count`, `miss_count`, `eviction_count`. -/
structure ARes where
  set : List CacheLine
  hi : Nat
  mi : Nat
  ev : Nat
deriving DecidableEq, Repr

/-- The per-set body of `accessData` (src/csim.c lines 161-260): first the
head line is tested (lines 166-171, a hit leaves the order unchanged), then
the hit-search loop runs with `e = E`; a spliced match is reattached at the
front (lines 183-200); on a miss the miss path runs (lines 214-260). -/
def accessSet (E t : Nat) (set : List CacheLine) : ARes :=
  match set with
  | [] => ⟨[], 0, 0, 0⟩
  | l :: rest =>
    if t = l.tag ∧ l.valid = true then ⟨l :: rest, 1, 0, 0⟩
    else
      match loopScan t E (l :: rest) with
      | some (m, r) => ⟨m :: r, 1, 0, 0⟩
      | none =>
        let r := missInsert t (l :: rest)
        ⟨r.1, 0, 1, r.2⟩

/-- The mutable program state of src/csim.c: the geometry globals `s`, `b`,
`E`, `S` (lines 33-40), the cache (line 67) and the three counters
(lines 43-45). -/
structure SimState where
  s : Nat
  b : Nat
  E : Nat
  S : Nat
  cache : List (List CacheLine)
  hit_count : Nat
  miss_count : Nat
  eviction_count : Nat
deriving DecidableEq, Repr

/-- `accessData` (src/csim.c lines 146-261): decode the address, service the
targeted set, store it back and bump the counters. -/
def accessData (addr : Nat) (st : SimState) : SimState :=
  let s_bits := setIndexOf st.s st.b addr
  let t_bits := tagOf st.s st.b addr
  let r := accessSet st.E t_bits (st.cache.getD s_bits [])
  { st with
    cache := st.cache.set s_bits r.set
    hit_count := st.hit_count + r.hi
    miss_count := st.miss_count + r.mi
    eviction_count := st.eviction_count + r.ev }

/-- The state right after `main` has parsed arguments `s`, `b`, `E` and
`initCache` has run (src/csim.c lines 345-384): `S = 2 ^ s`, all lines
invalid, all counters 0. -/
def initState (s b E : Nat) : SimState :=
  ⟨s, b, E, 2 ^ s, initCache s E, 0, 0, 0⟩

/-- Replaying a list of addresses through `accessData`, in order. -/
def runAccesses (as : List Nat) (st : SimState) : SimState :=
  as.foldl (fun st a => accessData a st) st

/-- The tags of the valid lines of a set, in list (= recency, MRU first)
order. -/
def validTags (set : List CacheLine) : List Nat :=
  (set.filter (fun l => l.valid)).map (fun l => l.tag)

/-- All valid lines of a set come before all invalid ones. -/
def validsFirst (set : List CacheLine) : Bool :=
  (set.dropWhile (fun l => l.valid)).all (fun l => !l.valid)

/-- The per-set invariant: exactly `E` lines (the linked list allocated by
`initCache` never changes length), valid lines first, and no two valid
lines share a tag. -/
def SetInv (E : Nat) (set : List CacheLine) : Prop :=
  set.length = E ∧ validsFirst set = true ∧ (validTags set).Nodup

instance (E : Nat) (set : List CacheLine) : Decidable (SetInv E set) := by
  unfold SetInv; infer_instance

/-- The reachable-state invariant for the whole simulator: the geometry
fields hold the configured values and every set satisfies `SetInv`. -/
def GoodState (s b E : Nat) (st : SimState) : Prop :=
  st.s = s ∧ st.b = b ∧ st.E = E ∧ st.cache.length = 2 ^ s ∧
    ∀ set ∈ st.cache, SetInv E set

instance (s b E : Nat) (st : SimState) : Decidable (GoodState s b E st) := by
  unfold GoodState; infer_instance

/-- Canonical LRU classify step, written from the spec (§4.2): on a hit the
line moves to the MRU (front) position and the rest shift down; on a miss
with spare capacity the new tag is inserted at the front; on a miss with a
full set the LRU (tail) tag is dropped, an eviction is counted, and the new
tag is inserted at the front.  States of this reference model are the valid
tags of one set in recency order. -/
def lruSpecStep (E t : Nat) (tags : List Nat) : List Nat × Nat × Nat × Nat :=
  if t ∈ tags then (t :: tags.erase t, 1, 0, 0)
  else if tags.length < E then (t :: tags, 0, 1, 0)
  else (t :: tags.dropLast, 0, 1, 1)

/-- Value of a hexadecimal digit, as accepted by `sscanf` with `%llx`. -/
def hexDigitVal (c : Char) : Option Nat :=
  if '0' ≤ c ∧ c ≤ '9' then some (c.toNat - '0'.toNat)
  else if 'a' ≤ c ∧ c ≤ 'f' then some (c.toNat - 'a'.toNat + 10)
  else if 'A' ≤ c ∧ c ≤ 'F' then some (c.toNat - 'A'.toNat + 10)
  else none

/-- Value of a decimal digit, as accepted by `sscanf` with `%u`. -/
def decDigitVal (c : Char) : Option Nat :=
  if '0' ≤ c ∧ c ≤ '9' then some (c.toNat - '0'.toNat) else none

/-- Accumulate hexadecimal digits into an unsigned long long value. -/
def scanHexDigits (cs : List Char) (acc : Nat) : Nat × List Char :=
  match cs with
  | [] => (acc, [])
  | c :: cs' =>
    match hexDigitVal c with
    | some v => scanHexDigits cs' ((acc * 16 + v) % 2 ^ 64)
    | none => (acc, c :: cs')

/-- Accumulate decimal digits into an unsigned int value. -/
def scanDecDigits (cs : List Char) (acc : Nat) : Nat × List Char :=
  match cs with
  | [] => (acc, [])
  | c :: cs' =>
    match decDigitVal c with
    | some v => scanDecDigits cs' ((acc * 10 + v) % 2 ^ 32)
    | none => (acc, c :: cs')

/-- One `%llx` conversion: skip whitespace, then require at least one hex
digit; `none` is a matching failure (the target variable keeps its old
value). -/
def scanLLX (cs : List Char) : Option (Nat × List Char) :=
  let cs1 := cs.dropWhile (fun c => c.isWhitespace)
  match cs1 with
  | [] => none
  | c :: _ =>
    match hexDigitVal c with
    | some _ => some (scanHexDigits cs1 0)
    | none => none

/-- One `%u` conversion: skip whitespace, then require a decimal digit. -/
def scanU (cs : List Char) : Option Nat :=
  let cs1 := cs.dropWhile (fun c => c.isWhitespace)
  match cs1 with
  | [] => none
  | c :: _ =>
    match decDigitVal c with
    | some _ => some (scanDecDigits cs1 0).1
    | none => none

/-- The call `sscanf(buf+3, "%llx,%u", &addr, &len)` at src/csim.c line 285,
applied to the characters after the first three: on a conversion failure the
corresponding variable keeps the value it had from the previous loop
iteration. -/
def sscanfAddrLen (cs : List Char) (addr0 len0 : Nat) : Nat × Nat :=
  match scanLLX cs with
  | none => (addr0, len0)
  | some (a, rest) =>
    match rest with
    | ',' :: rest2 =>
      match scanU rest2 with
      | none => (a, len0)
      | some l => (a, l)
    | _ => (a, len0)

/-- State of the `replayTrace` loop (src/csim.c lines 271-308): the
simulator state plus the loop-persistent variables `addr` and `len`. -/
structure ReplayState where
  sim : SimState
  addr : Nat
  len : Nat
deriving DecidableEq, Repr

/-- The character the C code reads as `buf[1]`: the second character of the
line as returned by `fgets`, or the terminating NUL for shorter lines. -/
def secondChar (buf : List Char) : Char :=
  buf.getD 1 (Char.ofNat 0)

/-- The body of the `fgets` loop in `replayTrace` (src/csim.c lines
283-305) for one line: a line is serviced only when its second character is
`S`, `L` or `M`; then the address and length are parsed from `buf + 3` and
`accessData` is called once, or twice for `M`.  Any other line leaves the
whole state unchanged. -/
def replayLine (buf : List Char) (rst : ReplayState) : ReplayState :=
  if secondChar buf = 'S' ∨ secondChar buf = 'L' ∨ secondChar buf = 'M' then
    let al := sscanfAddrLen (buf.drop 3) rst.addr rst.len
    let sim1 := accessData al.1 rst.sim
    let sim2 := if secondChar buf = 'M' then accessData al.1 sim1 else sim1
    ⟨sim2, al.1, al.2⟩
  else rst

/-- The full `replayTrace` loop over the lines of the trace file. -/
def replayTrace (lines : List (List Char)) (rst : ReplayState) : ReplayState :=
  lines.foldl (fun st buf => replayLine buf st) rst

/-- The replay state right after `initCache`, before the first line. -/
def initReplay (s b E : Nat) : ReplayState :=
  ⟨initState s b E, 0, 0⟩

/-- How many accesses a trace line is serviced with: 2 for an `M` record,
1 for an `L` or `S` record, 0 for any other line. -/
def servicedAccesses (buf : List Char) : Nat :=
  if secondChar buf = 'S' ∨ secondChar buf = 'L' ∨ secondChar buf = 'M' then
    if secondChar buf = 'M' then 2 else 1
  else 0

/-- Total number of serviced accesses of a trace. -/
def servicedTotal (lines : List (List Char)) : Nat :=
  (lines.map servicedAccesses).sum

/-- The required-argument check of `main` (src/csim.c line 377): the run is
aborted exactly when one of the `atoi`-parsed values `s`, `E`, `b` equals 0
or no trace file was given.  The parsed values are C `int`s, so they may be
negative. -/
def missingArgCheck (s E b : Int) (trace_file : Option (List Char)) : Bool :=
  s == 0 || E == 0 || b == 0 || trace_file == none

/-- Exit status of `printUsage` (src/csim.c line 326): it ends in
`exit(0)`, so the `exit(1)` that follows its call sites in `main` is never
reached. -/
def printUsageExit : Nat := 0

/-- What `main` does with the configuration before any cache construction
(src/csim.c lines 377-384): abort through `printUsage` when the
required-argument check fires, otherwise proceed to `initCache`. -/
inductive MainOutcome where
  | abortedBeforeCache (exitCode : Nat)
  | ranSimulation
deriving DecidableEq, Repr

/-- The configuration gate of `main`: which outcome the parsed arguments
lead to, and with which exit status on abort. -/
def mainConfigGate (s E b : Int) (trace_file : Option (List Char)) : MainOutcome :=
  if missingArgCheck s E b trace_file then .abortedBeforeCache printUsageExit
  else .ranSimulation

/-! ## Generic list helpers -/

theorem getD_set_eq {α : Type _} (l : List α) (i : Nat) (a d : α) (h : i < l.length) :
    (l.set i a).getD i d = a := by
  rw [List.getD_eq_getElem?_getD, List.getElem?_set_eq_of_lt a h]
  rfl

theorem getD_set_ne {α : Type _} (l : List α) {i j : Nat} (a d : α) (h : i ≠ j) :
    (l.set i a).getD j d = l.getD j d := by
  rw [List.getD_eq_getElem?_getD, List.getD_eq_getElem?_getD, List.getElem?_set_ne h]

theorem set_getD_self {α : Type _} (l : List α) (i : Nat) (d : α) (h : i < l.length) :
    l.set i (l.getD i d) = l := by
  induction l generalizing i with
  | nil => simp at h
  | cons a l ih =>
    cases i with
    | zero => simp
    | succ i => simp only [List.getD_cons_succ, List.set_cons_succ]
                rw [ih i (by simpa using h)]

theorem getD_mem {α : Type _} (l : List α) (i : Nat) (d : α) (h : i < l.length) :
    l.getD i d ∈ l := by
  rw [List.getD_eq_getElem l d h]
  exact List.getElem_mem h

theorem lt_length_of_getD_ne {α : Type _} (l : List α) (i : Nat) (d : α)
    (h : l.getD i d ≠ d) : i < l.length := by
  by_contra hlt
  apply h
  rw [List.getD_eq_getElem?_getD, List.getElem?_eq_none (by omega)]
  rfl

/-! ## Address decomposition -/

/-- The masked-shift computation of src/csim.c lines 150-156 agrees with the
arithmetic form of the spec. -/
theorem setIndexOf_eq (s b addr : Nat) :
    setIndexOf s b addr = (addr >>> b) % 2 ^ s := by
  apply Nat.eq_of_testBit_eq
  intro i
  simp only [setIndexOf, Nat.testBit_shiftRight, Nat.testBit_and, Nat.testBit_shiftLeft,
    Nat.one_shiftLeft, Nat.testBit_two_pow_sub_one, Nat.testBit_mod_two_pow]
  have h1 : b + i ≥ b := Nat.le_add_right b i
  have h2 : b + i - b = i := by omega
  simp [h1, h2]

/-- The set index is always within the `2 ^ s` sets of the cache. -/
theorem setIndexOf_lt (s b addr : Nat) : setIndexOf s b addr < 2 ^ s := by
  rw [setIndexOf_eq]
  exact Nat.mod_lt _ (Nat.two_pow_pos s)

/-! ## The hit-search loop -/

/-- If no valid line after the head carries the sought tag, the hit-search
loop finds nothing (for any value of the loop counter). -/
theorem loopScan_none (t : Nat) (e : Nat) (L : List CacheLine)
    (h : ∀ x ∈ L.tail, x.valid = true → x.tag ≠ t) : loopScan t e L = none := by
  induction L generalizing e with
  | nil => rfl
  | cons l L ih =>
    cases L with
    | nil => rfl
    | cons ln rest =>
      simp only [loopScan]
      split
      · rw [if_neg, ih (e - 1) fun x hx => h x (List.mem_cons_of_mem ln hx)]
        rintro ⟨hteq, hv⟩
        exact h ln (List.mem_cons_self ln rest) hv hteq.symm
      · rfl

/-- If the first valid line carrying the sought tag sits after a nonempty
block `P` of non-matching lines and the loop counter exceeds `P.length`, the
loop splices exactly that line out. -/
theorem loopScan_found (t : Nat) (P : List CacheLine) (m : CacheLine) (R : List CacheLine)
    (e : Nat) (hP : P ≠ []) (hskip : ∀ x ∈ P.tail, x.valid = true → x.tag ≠ t)
    (hv : m.valid = true) (ht : m.tag = t) (he : P.length < e) :
    loopScan t e (P ++ m :: R) = some (m, P ++ R) := by
  induction P generalizing e with
  | nil => exact absurd rfl hP
  | cons p P' ih =>
    cases P' with
    | nil =>
      simp only [List.cons_append, List.nil_append, loopScan]
      rw [if_pos (by simpa using he), if_pos ⟨ht.symm, hv⟩]
    | cons p' P'' =>
      have hrec := ih (e - 1) (List.cons_ne_nil p' P'')
        (fun x hx => hskip x (List.mem_cons_of_mem p' hx)) (by simp at he ⊢; omega)
      simp only [List.cons_append, List.append_eq] at hrec ⊢
      simp only [loopScan, List.append_eq]
      rw [if_pos (by simp at he ⊢; omega), if_neg, hrec]
      rintro ⟨hteq, hvp⟩
      exact hskip p' (List.mem_cons_self p' P'') hvp hteq.symm

/-- Whatever the loop returns, the spliced line is exactly the valid line
with the sought tag, and exactly one node was removed from the chain. -/
theorem loopScan_some (t : Nat) (e : Nat) (L : List CacheLine) (m : CacheLine)
    (r : List CacheLine) (h : loopScan t e L = some (m, r)) :
    m = ⟨true, t⟩ ∧ r.length + 1 = L.length := by
  induction L generalizing e m r with
  | nil => simp [loopScan] at h
  | cons l L ih =>
    cases L with
    | nil => simp [loopScan] at h
    | cons ln rest =>
      simp only [loopScan] at h
      split at h
      · split at h
        · rename_i hcond
          obtain ⟨hteq, hv⟩ := hcond
          obtain ⟨rfl, rfl⟩ : ln = m ∧ l :: rest = r := by simpa using h
          refine ⟨?_, by simp⟩
          cases ln with
          | mk v tg => simp_all
        · split at h
          · rename_i m' r' heq
            obtain ⟨rfl, rfl⟩ : m' = m ∧ l :: r' = r := by simpa using h
            obtain ⟨hm, hlen⟩ := ih (e - 1) m' r' heq
            refine ⟨hm, ?_⟩
            simp at hlen ⊢
            omega
          · exact absurd h (by simp)
      · exact absurd h (by simp)

/-! ## The miss path -/

/-- A set with a single line (and that line valid, so the walk is entered)
hits the `check->next == NULL` branch: refill in place, one eviction. -/
theorem missScan_single (t : Nat) (c : CacheLine) :
    missScan t [c] = ([⟨true, t⟩], none, 1) := rfl

/-- When a block of valid lines is followed by an invalid line, the walk
stops right there and splices the invalid line out to be refilled. -/
theorem missScan_invalid (t : Nat) (V : List CacheLine) (i : CacheLine)
    (R : List CacheLine) (hV : V ≠ []) (hval : ∀ x ∈ V, x.valid = true)
    (hi : i.valid = false) :
    missScan t (V ++ i :: R) = (V ++ R, some ⟨true, t⟩, 0) := by
  induction V with
  | nil => exact absurd rfl hV
  | cons v V' ih =>
    cases V' with
    | nil =>
      simp only [List.cons_append, List.nil_append, missScan]
      rw [if_neg (by simp [hi]), if_pos hi]
    | cons v' V'' =>
      have hrec := ih (List.cons_ne_nil v' V'')
        (fun x hx => hval x (List.mem_cons_of_mem v hx))
      simp only [List.cons_append, List.append_eq] at hrec ⊢
      simp only [missScan, List.append_eq]
      rw [if_pos ⟨hval v' (by simp), by simp⟩, hrec]

/-- One-step unfolding of the miss walk on a chain of length at least
two. -/
theorem missScan_cons_cons (t : Nat) (c n : CacheLine) (rest : List CacheLine) :
    missScan t (c :: n :: rest) =
      if n.valid = true ∧ rest ≠ [] then
        (c :: (missScan t (n :: rest)).1, (missScan t (n :: rest)).2.1,
          (missScan t (n :: rest)).2.2)
      else if n.valid = false then (c :: rest, some ⟨true, t⟩, 0)
      else ([c], some ⟨true, t⟩, 1) := rfl

/-- When every line of a (length at least two) set is valid, the walk stops
at the second-to-last node and evicts the tail. -/
theorem missScan_fullvalid (t : Nat) (V : List CacheLine)
    (hval : ∀ x ∈ V, x.valid = true) (hlen : 2 ≤ V.length) :
    missScan t V = (V.dropLast, some ⟨true, t⟩, 1) := by
  induction V with
  | nil => simp at hlen
  | cons v V' ih =>
    cases V' with
    | nil => simp at hlen
    | cons v' V'' =>
      cases V'' with
      | nil =>
        rw [missScan_cons_cons, if_neg (by simp), if_neg (by simp [hval v' (by simp)])]
        rfl
      | cons v'' V''' =>
        have hrec := ih (fun x hx => hval x (List.mem_cons_of_mem v hx)) (by simp)
        rw [missScan_cons_cons, if_pos ⟨hval v' (by simp), by simp⟩, hrec]
        simp [List.dropLast]

/-- Whatever the walk does on a chain of length at least two, it returns the
refilled line to be moved to the front and a chain one node shorter. -/
theorem missScan_len (t : Nat) (L : List CacheLine) (hlen : 2 ≤ L.length) :
    ∃ L' ev, missScan t L = (L', some ⟨true, t⟩, ev) ∧ L'.length + 1 = L.length := by
  induction L with
  | nil => simp at hlen
  | cons c L' ih =>
    cases L' with
    | nil => simp at hlen
    | cons n rest =>
      by_cases hadv : n.valid = true ∧ rest ≠ []
      · have hre : 2 ≤ (n :: rest).length := by
          cases rest with
          | nil => exact absurd rfl hadv.2
          | cons x rest' => simp
        obtain ⟨L'', ev, heq, hL⟩ := ih hre
        refine ⟨c :: L'', ev, ?_, ?_⟩
        · rw [missScan_cons_cons, if_pos hadv, heq]
        · simp at hL ⊢
          omega
      · by_cases hval : n.valid = false
        · refine ⟨c :: rest, 0, ?_, by simp⟩
          rw [missScan_cons_cons, if_neg hadv, if_pos hval]
        · have hv : n.valid = true := by
            cases hnv : n.valid
            · exact absurd hnv hval
            · rfl
          have hrest : rest = [] := by
            by_contra hne
            exact hadv ⟨hv, hne⟩
          subst hrest
          refine ⟨[c], 1, ?_, by simp⟩
          rw [missScan_cons_cons, if_neg hadv, if_neg (by simp [hv])]

/-- The miss path on a set whose head is invalid refills the head in place
(the `e == 0` branch, src/csim.c lines 226-229). -/
theorem missInsert_invalidHead (t : Nat) (c : CacheLine) (rest : List CacheLine)
    (h : c.valid = false) :
    missInsert t (c :: rest) = (⟨true, t⟩ :: rest, 0) := by
  simp [missInsert, h]

/-- The miss path on a set of valid lines followed by at least one invalid
line splices the first invalid line to the front and refills it
(src/csim.c lines 230-239). -/
theorem missInsert_spliceInvalid (t : Nat) (V : List CacheLine) (i : CacheLine)
    (R : List CacheLine) (hV : V ≠ []) (hval : ∀ x ∈ V, x.valid = true)
    (hi : i.valid = false) :
    missInsert t (V ++ i :: R) = (⟨true, t⟩ :: (V ++ R), 0) := by
  cases V with
  | nil => exact absurd rfl hV
  | cons v V' =>
    have hscan := missScan_invalid t (v :: V') i R (List.cons_ne_nil v V') hval hi
    simp only [List.cons_append, List.append_eq] at hscan ⊢
    simp only [missInsert, List.append_eq]
    rw [if_neg (by simp [hval v (by simp)]), hscan]

/-- The miss path on a full set of valid lines evicts the tail line and
inserts the refilled line at the front (src/csim.c lines 240-259; the
single-line case is lines 240-246). -/
theorem missInsert_evict (t : Nat) (V : List CacheLine)
    (hval : ∀ x ∈ V, x.valid = true) (hlen : 1 ≤ V.length) :
    missInsert t V = (⟨true, t⟩ :: V.dropLast, 1) := by
  cases V with
  | nil => simp at hlen
  | cons v V' =>
    cases V' with
    | nil =>
      simp only [missInsert]
      rw [if_neg (by simp [hval v (by simp)])]
      rfl
    | cons v' V'' =>
      have hscan := missScan_fullvalid t (v :: v' :: V'') hval (by simp)
      simp only [missInsert]
      rw [if_neg (by simp [hval v (by simp)]), hscan]

/-! ## The per-set invariant -/

/-- The valid tags of a list of valid lines followed by invalid lines are
just the valid lines' tags, in order. -/
theorem validTags_append_invalid (V I : List CacheLine)
    (hV : ∀ x ∈ V, x.valid = true) (hI : ∀ x ∈ I, x.valid = false) :
    validTags (V ++ I) = V.map (fun l => l.tag) := by
  unfold validTags
  rw [List.filter_append,
    List.filter_eq_self.mpr (fun a ha => by simp [hV a ha]),
    List.filter_eq_nil_iff.mpr (fun a ha => by simp [hI a ha]),
    List.append_nil]

/-- A list of valid lines followed by invalid lines has its valids first. -/
theorem validsFirst_append (V I : List CacheLine)
    (hV : ∀ x ∈ V, x.valid = true) (hI : ∀ x ∈ I, x.valid = false) :
    validsFirst (V ++ I) = true := by
  induction V with
  | nil =>
    cases I with
    | nil => rfl
    | cons i I' =>
      unfold validsFirst
      rw [List.nil_append, List.dropWhile_cons_of_neg (by simp [hI i (by simp)])]
      exact List.all_eq_true.mpr fun x hx => by simp [hI x hx]
  | cons v V' ih =>
    unfold validsFirst at ih ⊢
    rw [List.cons_append, List.dropWhile_cons_of_pos (by simp [hV v (by simp)])]
    exact ih fun x hx => hV x (List.mem_cons_of_mem v hx)

/-- Decomposition of a set satisfying the invariant into its valid block
followed by its invalid block. -/
theorem setInv_decomp (E : Nat) (set : List CacheLine) (h : SetInv E set) :
    ∃ V I, set = V ++ I ∧ (∀ x ∈ V, x.valid = true) ∧ (∀ x ∈ I, x.valid = false) ∧
      V.length + I.length = E ∧ validTags set = V.map (fun l => l.tag) ∧
      (V.map (fun l => l.tag)).Nodup := by
  obtain ⟨hlen, hvf, hnd⟩ := h
  have hV : ∀ x ∈ set.takeWhile (fun l => l.valid), x.valid = true := by
    intro x hx
    simpa using List.mem_takeWhile_imp hx
  have hI : ∀ x ∈ set.dropWhile (fun l => l.valid), x.valid = false := by
    intro x hx
    unfold validsFirst at hvf
    simpa using List.all_eq_true.mp hvf x hx
  have hsplit := (List.takeWhile_append_dropWhile (fun l => l.valid) set).symm
  have htags : validTags set = (set.takeWhile (fun l => l.valid)).map (fun l => l.tag) := by
    conv_lhs => rw [hsplit]
    exact validTags_append_invalid _ _ hV hI
  refine ⟨set.takeWhile (fun l => l.valid), set.dropWhile (fun l => l.valid),
    hsplit, hV, hI, ?_, htags, htags ▸ hnd⟩
  rw [← List.length_append, List.takeWhile_append_dropWhile]
  exact hlen

/-! ## The classify step on one set -/

/-- One-step unfolding of `accessSet` on a nonempty set. -/
theorem accessSet_cons (E t : Nat) (l : CacheLine) (rest : List CacheLine) :
    accessSet E t (l :: rest) =
      if t = l.tag ∧ l.valid = true then ⟨l :: rest, 1, 0, 0⟩
      else
        match loopScan t E (l :: rest) with
        | some (m, r) => ⟨m :: r, 1, 0, 0⟩
        | none => ⟨(missInsert t (l :: rest)).1, 0, 1, (missInsert t (l :: rest)).2⟩ := rfl

/-- A valid head line carrying the accessed tag is a hit that leaves the
set order unchanged (src/csim.c lines 166-171). -/
theorem accessSet_headHit (E t : Nat) (l : CacheLine) (rest : List CacheLine)
    (h1 : l.tag = t) (h2 : l.valid = true) :
    accessSet E t (l :: rest) = ⟨l :: rest, 1, 0, 0⟩ := by
  rw [accessSet_cons, if_pos ⟨h1.symm, h2⟩]

/-- A valid matching line after a nonempty non-matching block `P` is a hit
that moves exactly that line to the front (src/csim.c lines 174-211),
provided the loop budget `E` exceeds the block length. -/
theorem accessSet_deepHit (E t : Nat) (P : List CacheLine) (m : CacheLine)
    (R : List CacheLine) (hP : P ≠ []) (hPv : ∀ x ∈ P, x.valid = true → x.tag ≠ t)
    (hv : m.valid = true) (ht : m.tag = t) (he : P.length < E) :
    accessSet E t (P ++ m :: R) = ⟨m :: (P ++ R), 1, 0, 0⟩ := by
  cases P with
  | nil => exact absurd rfl hP
  | cons p P' =>
    have hfound := loopScan_found t (p :: P') m R E (List.cons_ne_nil p P')
      (fun x hx => hPv x (List.mem_cons_of_mem p hx)) hv ht he
    simp only [List.cons_append] at hfound ⊢
    rw [accessSet_cons, if_neg, hfound]
    rintro ⟨hteq, hval⟩
    exact hPv p (List.mem_cons_self p P') hval hteq.symm

/-- When no valid line of the set carries the accessed tag, the access takes
the miss path (src/csim.c lines 214-260). -/
theorem accessSet_missPath (E t : Nat) (l : CacheLine) (rest : List CacheLine)
    (hno : ∀ x ∈ l :: rest, x.valid = true → x.tag ≠ t) :
    accessSet E t (l :: rest) =
      ⟨(missInsert t (l :: rest)).1, 0, 1, (missInsert t (l :: rest)).2⟩ := by
  rw [accessSet_cons, if_neg, loopScan_none t E (l :: rest)
    (fun x hx => hno x (List.mem_cons_of_mem l hx))]
  rintro ⟨hteq, hval⟩
  exact hno l (List.mem_cons_self l rest) hval hteq.symm

/-- Assembling a set invariant from a valid block and an invalid block. -/
theorem setInv_build (E : Nat) (V I : List CacheLine)
    (hV : ∀ x ∈ V, x.valid = true) (hI : ∀ x ∈ I, x.valid = false)
    (hlen : V.length + I.length = E) (hnd : (V.map (fun l => l.tag)).Nodup) :
    SetInv E (V ++ I) := by
  refine ⟨by simp [hlen], validsFirst_append V I hV hI, ?_⟩
  rw [validTags_append_invalid V I hV hI]
  exact hnd

/-- The classify step of `accessSet` on a set satisfying the invariant is
exactly the canonical LRU classify step of the spec on the set's valid
tags, and it preserves the invariant. -/
theorem accessSet_lru (E t : Nat) (set : List CacheLine)
    (hinv : SetInv E set) (hE : 1 ≤ E) :
    validTags (accessSet E t set).set = (lruSpecStep E t (validTags set)).1 ∧
    (accessSet E t set).hi = (lruSpecStep E t (validTags set)).2.1 ∧
    (accessSet E t set).mi = (lruSpecStep E t (validTags set)).2.2.1 ∧
    (accessSet E t set).ev = (lruSpecStep E t (validTags set)).2.2.2 ∧
    SetInv E (accessSet E t set).set := by
  obtain ⟨V, I, rfl, hV, hI, hlen, htags, hnd⟩ := setInv_decomp E set hinv
  by_cases hmem : t ∈ V.map (fun l => l.tag)
  · -- a valid line with the accessed tag exists: the hit cases
    obtain ⟨m, hmV, hmt⟩ := List.mem_map.mp hmem
    obtain ⟨P, Q, rfl⟩ := List.append_of_mem hmV
    rw [List.map_append, List.map_cons, hmt] at hnd
    have htP : t ∉ P.map (fun l => l.tag) := fun hc =>
      (List.disjoint_of_nodup_append hnd) hc (List.mem_cons_self _ _)
    have hmv : m.valid = true := hV m hmV
    have hPval : ∀ x ∈ P, x.valid = true := fun x hx => hV x (by simp [hx])
    have hQval : ∀ x ∈ Q, x.valid = true := fun x hx => hV x (by simp [hx])
    have hset : accessSet E t ((P ++ m :: Q) ++ I) = ⟨(m :: (P ++ Q)) ++ I, 1, 0, 0⟩ := by
      cases P with
      | nil =>
        simp only [List.nil_append, List.cons_append]
        exact accessSet_headHit E t m (Q ++ I) hmt hmv
      | cons p P' =>
        have heq : ((p :: P') ++ m :: Q) ++ I = (p :: P') ++ m :: (Q ++ I) := by simp
        have hlt : (p :: P').length < E := by
          simp only [List.length_append, List.length_cons] at hlen ⊢
          omega
        rw [heq, accessSet_deepHit E t (p :: P') m (Q ++ I) (List.cons_ne_nil p P')
          (fun x hx _ hxt => htP (List.mem_map.mpr ⟨x, hx, hxt⟩)) hmv hmt hlt]
        simp
    rw [List.map_append, List.map_cons, hmt] at htags
    have hlru : lruSpecStep E t (validTags ((P ++ m :: Q) ++ I)) =
        (t :: (P.map (fun l => l.tag) ++ Q.map (fun l => l.tag)), 1, 0, 0) := by
      rw [htags]
      unfold lruSpecStep
      rw [if_pos (by simp), List.erase_append_right _ htP, List.erase_cons_head]
    have hres : validTags ((m :: (P ++ Q)) ++ I) =
        t :: (P.map (fun l => l.tag) ++ Q.map (fun l => l.tag)) := by
      rw [validTags_append_invalid (m :: (P ++ Q)) I ?_ hI]
      · simp [hmt]
      · intro x hx
        rcases List.mem_cons.mp hx with rfl | hx'
        · exact hmv
        · rcases List.mem_append.mp hx' with h | h
          · exact hPval x h
          · exact hQval x h
    rw [hset, hlru]
    refine ⟨hres, rfl, rfl, rfl, ?_⟩
    apply setInv_build
    · intro x hx
      rcases List.mem_cons.mp hx with rfl | hx'
      · exact hmv
      · rcases List.mem_append.mp hx' with h | h
        · exact hPval x h
        · exact hQval x h
    · exact hI
    · simp only [List.length_append, List.length_cons] at hlen ⊢
      omega
    · rw [List.map_cons, List.map_append, hmt]
      exact List.perm_middle.nodup hnd
  · -- no valid line with the accessed tag: the miss cases
    have hno : ∀ x ∈ V ++ I, x.valid = true → x.tag ≠ t := by
      intro x hx hxv hxt
      rcases List.mem_append.mp hx with h | h
      · exact hmem (List.mem_map.mpr ⟨x, h, hxt⟩)
      · rw [hI x h] at hxv
        exact Bool.false_ne_true hxv
    cases V with
    | nil =>
      cases I with
      | nil =>
        exfalso
        simp at hlen
        omega
      | cons i I' =>
        simp only [List.nil_append] at htags hno ⊢
        have hI' : ∀ x ∈ I', x.valid = false := fun x hx => hI x (List.mem_cons_of_mem i hx)
        have hset : accessSet E t (i :: I') = ⟨⟨true, t⟩ :: I', 0, 1, 0⟩ := by
          rw [accessSet_missPath E t i I' hno,
            missInsert_invalidHead t i I' (hI i (List.mem_cons_self i I'))]
        have hres : validTags (⟨true, t⟩ :: I') = [t] := by
          have h2 := validTags_append_invalid [⟨true, t⟩] I' (by simp) hI'
          simpa using h2
        have hlru : lruSpecStep E t (validTags (i :: I')) = ([t], 0, 1, 0) := by
          rw [htags]
          unfold lruSpecStep
          rw [if_neg (by simp), if_pos (by simpa using hE)]
          simp
        rw [hset, hlru]
        refine ⟨hres, rfl, rfl, rfl, ?_⟩
        have hshape : (⟨true, t⟩ :: I' : List CacheLine) = [⟨true, t⟩] ++ I' := rfl
        rw [hshape]
        apply setInv_build E [⟨true, t⟩] I' (by simp) hI' ?_ (by simp)
        simp only [List.length_nil, List.length_cons] at hlen ⊢
        omega
    | cons v V' =>
      cases I with
      | cons i I' =>
        simp only [List.cons_append] at htags hno ⊢
        have hI' : ∀ x ∈ I', x.valid = false := fun x hx => hI x (List.mem_cons_of_mem i hx)
        have hii : i.valid = false := hI i (List.mem_cons_self i I')
        have hsp := missInsert_spliceInvalid t (v :: V') i I' (List.cons_ne_nil v V') hV hii
        simp only [List.cons_append] at hsp
        have hset : accessSet E t (v :: (V' ++ i :: I')) =
            ⟨⟨true, t⟩ :: v :: (V' ++ I'), 0, 1, 0⟩ := by
          rw [accessSet_missPath E t v (V' ++ i :: I') hno, hsp]
        have hres : validTags (⟨true, t⟩ :: v :: (V' ++ I')) =
            t :: (v :: V').map (fun l => l.tag) := by
          have h2 := validTags_append_invalid (⟨true, t⟩ :: v :: V') I' ?_ hI'
          · simpa using h2
          · intro x hx
            rcases List.mem_cons.mp hx with rfl | hx'
            · rfl
            · exact hV x hx'
        have hlru : lruSpecStep E t (validTags (v :: (V' ++ i :: I'))) =
            (t :: (v :: V').map (fun l => l.tag), 0, 1, 0) := by
          rw [htags]
          unfold lruSpecStep
          rw [if_neg hmem, if_pos ?_]
          simp only [List.length_map, List.length_cons, List.length_append] at hlen ⊢
          omega
        rw [hset, hlru]
        refine ⟨hres, rfl, rfl, rfl, ?_⟩
        have hshape : (⟨true, t⟩ :: v :: (V' ++ I') : List CacheLine) =
            (⟨true, t⟩ :: v :: V') ++ I' := by simp
        rw [hshape]
        apply setInv_build
        · intro x hx
          rcases List.mem_cons.mp hx with rfl | hx'
          · rfl
          · exact hV x hx'
        · exact hI'
        · simp only [List.length_cons, List.length_append] at hlen ⊢
          omega
        · rw [List.map_cons]
          exact List.nodup_cons.mpr ⟨hmem, hnd⟩
      | nil =>
        simp only [List.append_nil] at htags hno ⊢
        have hset : accessSet E t (v :: V') =
            ⟨⟨true, t⟩ :: (v :: V').dropLast, 0, 1, 1⟩ := by
          rw [accessSet_missPath E t v V' hno, missInsert_evict t (v :: V') hV (by simp)]
        have hres : validTags (⟨true, t⟩ :: (v :: V').dropLast) =
            t :: ((v :: V').map (fun l => l.tag)).dropLast := by
          have h2 := validTags_append_invalid (⟨true, t⟩ :: (v :: V').dropLast) [] ?_ (by simp)
          · simpa [List.map_dropLast] using h2
          · intro x hx
            rcases List.mem_cons.mp hx with rfl | hx'
            · rfl
            · exact hV x (List.dropLast_subset _ hx')
        have hlru : lruSpecStep E t (validTags (v :: V')) =
            (t :: ((v :: V').map (fun l => l.tag)).dropLast, 0, 1, 1) := by
          rw [htags]
          unfold lruSpecStep
          rw [if_neg hmem, if_neg ?_]
          simp only [List.length_map, List.length_cons, List.length_nil,
            List.append_nil] at hlen ⊢
          omega
        rw [hset, hlru]
        refine ⟨hres, rfl, rfl, rfl, ?_⟩
        have hshape : (⟨true, t⟩ :: (v :: V').dropLast : List CacheLine) =
            (⟨true, t⟩ :: (v :: V').dropLast) ++ [] := by simp
        rw [hshape]
        apply setInv_build
        · intro x hx
          rcases List.mem_cons.mp hx with rfl | hx'
          · rfl
          · exact hV x (List.dropLast_subset _ hx')
        · simp
        · simp only [List.length_cons, List.length_dropLast, List.length_nil,
            List.append_nil] at hlen ⊢
          omega
        · rw [List.map_cons, List.map_dropLast]
          refine List.nodup_cons.mpr ⟨?_, ?_⟩
          · intro hc
            exact hmem (List.dropLast_subset _ hc)
          · exact List.Nodup.sublist (List.dropLast_sublist _) hnd

/-- After any access on a nonempty set, the accessed tag sits valid at the
MRU (front) position, and the set keeps its length (no node is ever
allocated or freed by `accessData`). -/
theorem accessSet_head_mru (E t : Nat) (set : List CacheLine) (hne : set ≠ []) :
    ∃ r, (accessSet E t set).set = ⟨true, t⟩ :: r ∧
      (accessSet E t set).set.length = set.length := by
  cases set with
  | nil => exact absurd rfl hne
  | cons l rest =>
    rw [accessSet_cons]
    by_cases hhit : t = l.tag ∧ l.valid = true
    · rw [if_pos hhit]
      refine ⟨rest, ?_, rfl⟩
      obtain ⟨h1, h2⟩ := hhit
      cases l with
      | mk v tg => simp_all
    · rw [if_neg hhit]
      cases hscan : loopScan t E (l :: rest) with
      | some mr =>
        obtain ⟨m, r⟩ := mr
        obtain ⟨hm, hr⟩ := loopScan_some t E (l :: rest) m r hscan
        subst hm
        refine ⟨r, rfl, ?_⟩
        simp at hr ⊢
        omega
      | none =>
        by_cases hval : l.valid = false
        · rw [missInsert_invalidHead t l rest hval]
          exact ⟨rest, rfl, by simp⟩
        · have hlv : l.valid = true := by
            cases h : l.valid
            · exact absurd h hval
            · rfl
          cases rest with
          | nil =>
            refine ⟨[], ?_, ?_⟩ <;> simp [missInsert, missScan, hlv]
          | cons n rest' =>
            obtain ⟨L', ev, heq, hL⟩ := missScan_len t (l :: n :: rest') (by simp)
            have hmi : missInsert t (l :: n :: rest') = (⟨true, t⟩ :: L', ev) := by
              simp only [missInsert]
              rw [if_neg (by simp [hlv]), heq]
            rw [hmi]
            refine ⟨L', rfl, ?_⟩
            simp at hL ⊢
            omega

/-- Every access on a nonempty set is classified as exactly one hit or one
miss: the code increments exactly one of the two counters by one. -/
theorem accessSet_one (E t : Nat) (set : List CacheLine) (hne : set ≠ []) :
    (accessSet E t set).hi + (accessSet E t set).mi = 1 := by
  cases set with
  | nil => exact absurd rfl hne
  | cons l rest =>
    rw [accessSet_cons]
    by_cases hhit : t = l.tag ∧ l.valid = true
    · rw [if_pos hhit]
      rfl
    · rw [if_neg hhit]
      cases hscan : loopScan t E (l :: rest) with
      | some mr =>
        cases mr
        rfl
      | none => rfl

/-! ## State-level lemmas -/

/-- One access preserves the reachable-state invariant. -/
theorem accessData_good (s b E : Nat) (st : SimState) (h : GoodState s b E st)
    (hE : 1 ≤ E) (addr : Nat) : GoodState s b E (accessData addr st) := by
  obtain ⟨hs, hb, hEe, hlen, hsets⟩ := h
  refine ⟨hs, hb, hEe, ?_, ?_⟩
  · simp [accessData, List.length_set, hlen]
  · intro set hset
    simp only [accessData] at hset
    rcases List.mem_or_eq_of_mem_set hset with hmem | rfl
    · exact hsets set hmem
    · have hidx : setIndexOf st.s st.b addr < st.cache.length := by
        rw [hlen, ← hs]
        exact setIndexOf_lt st.s st.b addr
      have hinv := hsets _ (getD_mem st.cache (setIndexOf st.s st.b addr) [] hidx)
      have h3 := (accessSet_lru st.E (tagOf st.s st.b addr)
        (st.cache.getD (setIndexOf st.s st.b addr) [])
        (by rw [hEe]; exact hinv) (by rw [hEe]; exact hE)).2.2.2.2
      rw [← hEe]
      exact h3

/-- The freshly initialized cache satisfies the invariant. -/
theorem initState_good (s b E : Nat) (hE : 1 ≤ E) :
    GoodState s b E (initState s b E) := by
  refine ⟨rfl, rfl, rfl, by simp [initState, initCache], ?_⟩
  intro set hset
  simp only [initState, initCache] at hset
  rw [List.eq_of_mem_replicate hset]
  refine ⟨by simp [initSet]; omega, ?_, ?_⟩
  · unfold validsFirst initSet
    rw [List.dropWhile_cons_of_neg (by simp [initLine])]
    refine List.all_eq_true.mpr ?_
    intro x hx
    rcases List.mem_cons.mp hx with rfl | hx'
    · simp [initLine]
    · rw [List.eq_of_mem_replicate hx']
      simp [initLine]
  · have hempty : validTags (initSet E) = [] := by
      unfold validTags initSet
      rw [List.filter_eq_nil_iff.mpr ?_]
      · rfl
      · intro a ha
        rcases List.mem_cons.mp ha with rfl | ha'
        · simp [initLine]
        · rw [List.eq_of_mem_replicate ha']
          simp [initLine]
    rw [hempty]
    exact List.nodup_nil

/-- Replaying any address sequence preserves the invariant. -/
theorem runAccesses_good (s b E : Nat) (as : List Nat) (st : SimState)
    (h : GoodState s b E st) (hE : 1 ≤ E) : GoodState s b E (runAccesses as st) := by
  induction as generalizing st with
  | nil => exact h
  | cons a as ih => exact ih (accessData a st) (accessData_good s b E st h hE a)

/-- One access increments `hit_count + miss_count` by exactly one. -/
theorem accessData_one (s b E : Nat) (st : SimState) (h : GoodState s b E st)
    (hE : 1 ≤ E) (addr : Nat) :
    (accessData addr st).hit_count + (accessData addr st).miss_count
      = st.hit_count + st.miss_count + 1 := by
  obtain ⟨hs, hb, hEe, hlen, hsets⟩ := h
  have hidx : setIndexOf st.s st.b addr < st.cache.length := by
    rw [hlen, ← hs]
    exact setIndexOf_lt st.s st.b addr
  have hne : st.cache.getD (setIndexOf st.s st.b addr) [] ≠ [] := by
    obtain ⟨hl, -, -⟩ := hsets _ (getD_mem st.cache (setIndexOf st.s st.b addr) [] hidx)
    intro hc
    rw [hc] at hl
    simp at hl
    omega
  have hone := accessSet_one st.E (tagOf st.s st.b addr) _ hne
  simp only [accessData]
  omega

/-- One access performs exactly the canonical LRU classify step on the
targeted set's valid-tag list and applies the matching counter
increments. -/
theorem accessData_lru (st : SimState) (addr : Nat)
    (hinv : SetInv st.E (st.cache.getD (setIndexOf st.s st.b addr) []))
    (hE : 1 ≤ st.E) :
    validTags ((accessData addr st).cache.getD (setIndexOf st.s st.b addr) []) =
      (lruSpecStep st.E (tagOf st.s st.b addr)
        (validTags (st.cache.getD (setIndexOf st.s st.b addr) []))).1 ∧
    (accessData addr st).hit_count = st.hit_count +
      (lruSpecStep st.E (tagOf st.s st.b addr)
        (validTags (st.cache.getD (setIndexOf st.s st.b addr) []))).2.1 ∧
    (accessData addr st).miss_count = st.miss_count +
      (lruSpecStep st.E (tagOf st.s st.b addr)
        (validTags (st.cache.getD (setIndexOf st.s st.b addr) []))).2.2.1 ∧
    (accessData addr st).eviction_count = st.eviction_count +
      (lruSpecStep st.E (tagOf st.s st.b addr)
        (validTags (st.cache.getD (setIndexOf st.s st.b addr) []))).2.2.2 := by
  have hidx : setIndexOf st.s st.b addr < st.cache.length := by
    apply lt_length_of_getD_ne st.cache _ []
    intro hc
    obtain ⟨hl, -, -⟩ := hinv
    rw [hc] at hl
    simp at hl
    omega
  have hl := accessSet_lru st.E (tagOf st.s st.b addr) _ hinv hE
  simp only [accessData]
  rw [getD_set_eq _ _ _ _ hidx]
  exact ⟨hl.1, by rw [hl.2.1], by rw [hl.2.2.1], by rw [hl.2.2.2.1]⟩

/-- Unfolding of `replayLine` into its serviced and skipped shapes. -/
theorem replayLine_eq (buf : List Char) (rst : ReplayState) :
    replayLine buf rst =
      if secondChar buf = 'S' ∨ secondChar buf = 'L' ∨ secondChar buf = 'M' then
        ⟨(if secondChar buf = 'M'
            then accessData (sscanfAddrLen (buf.drop 3) rst.addr rst.len).1
              (accessData (sscanfAddrLen (buf.drop 3) rst.addr rst.len).1 rst.sim)
            else accessData (sscanfAddrLen (buf.drop 3) rst.addr rst.len).1 rst.sim),
          (sscanfAddrLen (buf.drop 3) rst.addr rst.len).1,
          (sscanfAddrLen (buf.drop 3) rst.addr rst.len).2⟩
      else rst := rfl

/-- The serviced-access count distributes over the first trace line. -/
theorem servicedTotal_cons (buf : List Char) (lines : List (List Char)) :
    servicedTotal (buf :: lines) = servicedAccesses buf + servicedTotal lines := by
  simp [servicedTotal]

/-- A freshly initialized set holds no valid tag. -/
theorem validTags_initSet (E : Nat) : validTags (initSet E) = [] := by
  unfold validTags initSet
  rw [List.filter_eq_nil_iff.mpr ?_]
  · rfl
  · intro a ha
    rcases List.mem_cons.mp ha with rfl | ha'
    · simp [initLine]
    · rw [List.eq_of_mem_replicate ha']
      simp [initLine]

/-- Any in-range set of the freshly initialized cache is `initSet E`. -/
theorem getD_initCache (s E i : Nat) (hi : i < 2 ^ s) :
    (initCache s E).getD i [] = initSet E := by
  unfold initCache
  rw [List.getD_eq_getElem _ _ (by simpa using hi), List.getElem_replicate]

/-- Projection of a literal replay state. -/
theorem replayState_sim (sim : SimState) (a l : Nat) :
    (ReplayState.mk sim a l).sim = sim := rfl

/-- Replay conservation, relative form: replaying any list of trace lines
adds exactly the serviced-access count to `hit_count + miss_count` and
preserves the invariant. -/
theorem replay_conserve_aux (s b E : Nat) (hE : 1 ≤ E) (lines : List (List Char))
    (rst : ReplayState) (h : GoodState s b E rst.sim) :
    GoodState s b E (replayTrace lines rst).sim ∧
    (replayTrace lines rst).sim.hit_count + (replayTrace lines rst).sim.miss_count
      = rst.sim.hit_count + rst.sim.miss_count + servicedTotal lines := by
  induction lines generalizing rst with
  | nil => exact ⟨h, by simp [replayTrace, servicedTotal]⟩
  | cons buf lines ih =>
    have hstep : replayTrace (buf :: lines) rst = replayTrace lines (replayLine buf rst) := rfl
    rw [hstep, servicedTotal_cons]
    by_cases hc : secondChar buf = 'S' ∨ secondChar buf = 'L' ∨ secondChar buf = 'M'
    · by_cases hm : secondChar buf = 'M'
      · have hsim : (replayLine buf rst).sim =
            accessData (sscanfAddrLen (buf.drop 3) rst.addr rst.len).1
              (accessData (sscanfAddrLen (buf.drop 3) rst.addr rst.len).1 rst.sim) := by
          rw [replayLine_eq, if_pos hc, if_pos hm]
        have hg1 : GoodState s b E
            (accessData (sscanfAddrLen (buf.drop 3) rst.addr rst.len).1 rst.sim) :=
          accessData_good s b E rst.sim h hE _
        have hg2 : GoodState s b E (replayLine buf rst).sim := by
          rw [hsim]
          exact accessData_good s b E _ hg1 hE _
        obtain ⟨hgf, heq⟩ := ih (replayLine buf rst) hg2
        rw [hsim] at heq
        refine ⟨hgf, ?_⟩
        rw [heq]
        have c1 := accessData_one s b E rst.sim h hE
          (sscanfAddrLen (buf.drop 3) rst.addr rst.len).1
        have c2 := accessData_one s b E _ hg1 hE
          (sscanfAddrLen (buf.drop 3) rst.addr rst.len).1
        have hserv : servicedAccesses buf = 2 := by
          unfold servicedAccesses
          rw [if_pos hc, if_pos hm]
        rw [hserv]
        omega
      · have hsim : (replayLine buf rst).sim =
            accessData (sscanfAddrLen (buf.drop 3) rst.addr rst.len).1 rst.sim := by
          rw [replayLine_eq, if_pos hc, if_neg hm]
        have hg1 : GoodState s b E (replayLine buf rst).sim := by
          rw [hsim]
          exact accessData_good s b E rst.sim h hE _
        obtain ⟨hgf, heq⟩ := ih (replayLine buf rst) hg1
        rw [hsim] at heq
        refine ⟨hgf, ?_⟩
        rw [heq]
        have c1 := accessData_one s b E rst.sim h hE
          (sscanfAddrLen (buf.drop 3) rst.addr rst.len).1
        have hserv : servicedAccesses buf = 1 := by
          unfold servicedAccesses
          rw [if_pos hc, if_neg hm]
        rw [hserv]
        omega
    · have hrs : replayLine buf rst = rst := by rw [replayLine_eq, if_neg hc]
      rw [hrs]
      obtain ⟨hgf, heq⟩ := ih rst h
      refine ⟨hgf, ?_⟩
      rw [heq]
      have hserv : servicedAccesses buf = 0 := by
        unfold servicedAccesses
        rw [if_neg hc]
      rw [hserv]
      omega

/-- Filling one set with distinct-tag misses: each access misses, inserts
its tag at the MRU position and causes no eviction. -/
theorem fill_distinct_aux (s b E : Nat) (hE : 1 ≤ E) (i : Nat) (as : List Nat) :
    ∀ (st : SimState) (acc : List Nat), GoodState s b E st →
      (∀ a ∈ as, setIndexOf s b a = i) →
      ((as.map fun a => tagOf s b a).Nodup) →
      (∀ a ∈ as, tagOf s b a ∉ acc) →
      validTags (st.cache.getD i []) = acc →
      acc.length + as.length ≤ E →
      validTags ((runAccesses as st).cache.getD i []) =
        (as.map fun a => tagOf s b a).reverse ++ acc ∧
      (runAccesses as st).hit_count = st.hit_count ∧
      (runAccesses as st).miss_count = st.miss_count + as.length ∧
      (runAccesses as st).eviction_count = st.eviction_count := by
  induction as with
  | nil =>
    intro st acc hg _ _ _ hacc _
    exact ⟨by simpa using hacc, rfl, by simp [runAccesses], rfl⟩
  | cons a as ih =>
    intro st acc hg hidx hnd hdisj hacc hcap
    obtain ⟨hs, hb, hEe, hclen, hsets⟩ := hg
    have hia : setIndexOf s b a = i := hidx a (List.mem_cons_self a as)
    have hilt : i < st.cache.length := by
      rw [hclen, ← hia, ← hs, ← hb]
      exact setIndexOf_lt st.s st.b a
    have hinv : SetInv st.E (st.cache.getD (setIndexOf st.s st.b a) []) := by
      rw [hs, hb, hia, hEe]
      exact hsets _ (getD_mem st.cache i [] hilt)
    have hstep := accessData_lru st a hinv (by rw [hEe]; exact hE)
    rw [hs, hb, hia, hEe, hacc] at hstep
    have hnotin : tagOf s b a ∉ acc := hdisj a (List.mem_cons_self a as)
    have hlt : acc.length < E := by
      simp only [List.length_cons] at hcap
      omega
    rw [lruSpecStep, if_neg hnotin, if_pos hlt] at hstep
    have hg' : GoodState s b E (accessData a st) :=
      accessData_good s b E st ⟨hs, hb, hEe, hclen, hsets⟩ hE a
    have hrec := ih (accessData a st) (tagOf s b a :: acc) hg'
      (fun x hx => hidx x (List.mem_cons_of_mem a hx))
      ((List.nodup_cons.mp hnd).2)
      (fun x hx => by
        intro hmem
        rcases List.mem_cons.mp hmem with heq | hmem'
        · exact (List.nodup_cons.mp hnd).1 (List.mem_map.mpr ⟨x, hx, heq⟩)
        · exact hdisj x (List.mem_cons_of_mem a hx) hmem')
      hstep.1
      (by simp only [List.length_cons] at hcap ⊢; omega)
    have hrun : runAccesses (a :: as) st = runAccesses as (accessData a st) := rfl
    rw [hrun]
    refine ⟨?_, ?_, ?_, ?_⟩
    · rw [hrec.1]
      simp
    · rw [hrec.2.1, hstep.2.1]
      rfl
    · rw [hrec.2.2.1, hstep.2.2.1]
      show st.miss_count + 1 + as.length = st.miss_count + (as.length + 1)
      omega
    · rw [hrec.2.2.2, hstep.2.2.2]
      rfl

/-- The geometry field `s` is never written by `accessData`. -/
theorem accessData_s (addr : Nat) (st : SimState) : (accessData addr st).s = st.s := rfl

/-- The geometry field `b` is never written by `accessData`. -/
theorem accessData_b (addr : Nat) (st : SimState) : (accessData addr st).b = st.b := rfl

/-- The geometry field `E` is never written by `accessData`. -/
theorem accessData_E (addr : Nat) (st : SimState) : (accessData addr st).E = st.E := rfl

/-- The derived field `S` is never written by `accessData`. -/
theorem accessData_S (addr : Nat) (st : SimState) : (accessData addr st).S = st.S := rfl

/-! ## The claims -/

/-- C1: for every single access from a state whose targeted set satisfies
the set invariant, `accessData` implements the canonical LRU classify step:
on a hit, `hit_count` rises by one and the hit tag moves to the MRU front
with the rest shifted down; on a miss with spare capacity, `miss_count`
rises by one and the new tag is inserted at the front; on a miss with a
full set, the LRU (tail) tag is removed, `eviction_count` rises by one and
the new tag is inserted at the front. -/
theorem accessData_implements_lru_step (st : SimState) (addr : Nat)
    (hinv : SetInv st.E (st.cache.getD (setIndexOf st.s st.b addr) []))
    (hE : 1 ≤ st.E) :
    validTags ((accessData addr st).cache.getD (setIndexOf st.s st.b addr) []) =
      (lruSpecStep st.E (tagOf st.s st.b addr)
        (validTags (st.cache.getD (setIndexOf st.s st.b addr) []))).1 ∧
    (accessData addr st).hit_count = st.hit_count +
      (lruSpecStep st.E (tagOf st.s st.b addr)
        (validTags (st.cache.getD (setIndexOf st.s st.b addr) []))).2.1 ∧
    (accessData addr st).miss_count = st.miss_count +
      (lruSpecStep st.E (tagOf st.s st.b addr)
        (validTags (st.cache.getD (setIndexOf st.s st.b addr) []))).2.2.1 ∧
    (accessData addr st).eviction_count = st.eviction_count +
      (lruSpecStep st.E (tagOf st.s st.b addr)
        (validTags (st.cache.getD (setIndexOf st.s st.b addr) []))).2.2.2 :=
  accessData_lru st addr hinv hE

/-- Witness for C1 at a concrete state and address. -/
theorem accessData_implements_lru_step_witness :
    validTags ((accessData 0 (initState 1 1 1)).cache.getD
      (setIndexOf (initState 1 1 1).s (initState 1 1 1).b 0) []) =
      (lruSpecStep (initState 1 1 1).E (tagOf (initState 1 1 1).s (initState 1 1 1).b 0)
        (validTags ((initState 1 1 1).cache.getD
          (setIndexOf (initState 1 1 1).s (initState 1 1 1).b 0) []))).1 :=
  (accessData_implements_lru_step (initState 1 1 1) 0 (by decide) (by decide)).1

/-- C2: for every address in the 64-bit domain, the set index computed by
the access path equals `(address >> b) mod 2 ^ s` and the tag equals
`address >> (s + b)`; the hypothesis `s + b ≤ 31` delimits the geometries
for which the C `int` mask computation at src/csim.c line 150 is free of
signed overflow, so that the embedding and the C code coincide. -/
theorem decode_matches_spec (s b addr : Nat) (h64 : addr < 2 ^ 64)
    (hwf : s + b ≤ 31) :
    setIndexOf s b addr = (addr >>> b) % 2 ^ s ∧
    tagOf s b addr = addr >>> (s + b) :=
  ⟨setIndexOf_eq s b addr, rfl⟩

/-- Witness for C2 at a concrete geometry and address. -/
theorem decode_matches_spec_witness :
    setIndexOf 4 4 33000 = (33000 >>> 4) % 2 ^ 4 ∧
    tagOf 4 4 33000 = 33000 >>> (4 + 4) :=
  decode_matches_spec 4 4 33000 (by norm_num) (by norm_num)

/-- C3: the per-set invariant (at most `E` valid lines since every set has
exactly `E` lines, and pairwise-distinct valid tags) holds after `initCache`
and after every sequence of accesses. -/
theorem setInv_init_and_preserved (s b E : Nat) (hE : 1 ≤ E) (as : List Nat) :
    (∀ set ∈ (initState s b E).cache, SetInv E set) ∧
    (∀ set ∈ (runAccesses as (initState s b E)).cache, SetInv E set) :=
  ⟨(initState_good s b E hE).2.2.2.2,
   (runAccesses_good s b E as (initState s b E) (initState_good s b E hE) hE).2.2.2.2⟩

/-- Witness for C3 over a concrete access sequence, at the first set. -/
theorem setInv_init_and_preserved_witness :
    SetInv 2 ((runAccesses [0, 4, 8, 4] (initState 1 1 2)).cache.getD 0 []) :=
  (setInv_init_and_preserved 1 1 2 (by decide) [0, 4, 8, 4]).2 _
    (getD_mem _ 0 [] (by decide))

/-- C4 (code bug): the required-argument gate of `main` diverges from the
claim in two ways.  A negative parameter such as `-s -1` is non-positive
but passes the `s == 0 || E == 0 || b == 0` check, so the run is not
aborted; and when the check does fire, `printUsage` ends the process with
`exit(0)` before `main` can reach its `exit(1)`, so the exit status is 0,
not non-zero. -/
theorem config_check_code_bug :
    mainConfigGate (-1) 1 1 (some ['f']) = MainOutcome.ranSimulation ∧
    mainConfigGate 0 1 1 (some ['f']) = MainOutcome.abortedBeforeCache 0 ∧
    printUsageExit = 0 := by
  refine ⟨?_, ?_, rfl⟩ <;> rfl

/-- C5: for any trace, after the full replay `hits + misses` equals the
number of serviced accesses, each `L`/`S` record counting one access and
each `M` record counting two. -/
theorem replay_hit_miss_conservation (s b E : Nat) (hE : 1 ≤ E)
    (lines : List (List Char)) :
    (replayTrace lines (initReplay s b E)).sim.hit_count +
      (replayTrace lines (initReplay s b E)).sim.miss_count = servicedTotal lines := by
  have h := (replay_conserve_aux s b E hE lines (initReplay s b E)
    (initState_good s b E hE)).2
  simpa [initReplay, initState] using h

/-- Witness for C5 on a concrete trace with `L`, `M`, skipped and malformed
lines. -/
theorem replay_hit_miss_conservation_witness :
    (replayTrace [[' ', 'L', ' ', '0', ',', '1'], [' ', 'M', ' ', '4', ',', '2'],
        ['I', ' ', '0', ',', '1'], []] (initReplay 1 1 1)).sim.hit_count +
      (replayTrace [[' ', 'L', ' ', '0', ',', '1'], [' ', 'M', ' ', '4', ',', '2'],
        ['I', ' ', '0', ',', '1'], []] (initReplay 1 1 1)).sim.miss_count =
      servicedTotal [[' ', 'L', ' ', '0', ',', '1'], [' ', 'M', ' ', '4', ',', '2'],
        ['I', ' ', '0', ',', '1'], []] :=
  replay_hit_miss_conservation 1 1 1 (by decide)
    [[' ', 'L', ' ', '0', ',', '1'], [' ', 'M', ' ', '4', ',', '2'],
      ['I', ' ', '0', ',', '1'], []]

/-- C6: from any state whose targeted set still has its allocated `E ≥ 1`
lines, two consecutive `accessData` calls on the same address (as issued
for every `M` trace record) make the second call a pure hit: only
`hit_count` changes, by exactly one, because the first call always leaves
the accessed tag valid at the MRU position of its set. -/
theorem modify_second_access_hits (st : SimState) (addr : Nat)
    (hlen : (st.cache.getD (setIndexOf st.s st.b addr) []).length = st.E)
    (hE : 1 ≤ st.E) :
    accessData addr (accessData addr st) =
      { accessData addr st with
        hit_count := (accessData addr st).hit_count + 1 } := by
  have hne : st.cache.getD (setIndexOf st.s st.b addr) [] ≠ [] := by
    intro hc
    rw [hc] at hlen
    simp at hlen
    omega
  have hidx : setIndexOf st.s st.b addr < st.cache.length :=
    lt_length_of_getD_ne st.cache _ [] hne
  obtain ⟨r, hhead, -⟩ := accessSet_head_mru st.E (tagOf st.s st.b addr)
    (st.cache.getD (setIndexOf st.s st.b addr) []) hne
  have hgetD : (accessData addr st).cache.getD (setIndexOf st.s st.b addr) [] =
      CacheLine.mk true (tagOf st.s st.b addr) :: r := by
    simp only [accessData]
    rw [getD_set_eq _ _ _ _ hidx]
    exact hhead
  have hidx2 : setIndexOf st.s st.b addr < (accessData addr st).cache.length := by
    simp only [accessData, List.length_set]
    exact hidx
  have key : accessData addr (accessData addr st) =
      { accessData addr st with
        cache := (accessData addr st).cache.set (setIndexOf st.s st.b addr)
          (accessSet st.E (tagOf st.s st.b addr)
            ((accessData addr st).cache.getD (setIndexOf st.s st.b addr) [])).set,
        hit_count := (accessData addr st).hit_count +
          (accessSet st.E (tagOf st.s st.b addr)
            ((accessData addr st).cache.getD (setIndexOf st.s st.b addr) [])).hi,
        miss_count := (accessData addr st).miss_count +
          (accessSet st.E (tagOf st.s st.b addr)
            ((accessData addr st).cache.getD (setIndexOf st.s st.b addr) [])).mi,
        eviction_count := (accessData addr st).eviction_count +
          (accessSet st.E (tagOf st.s st.b addr)
            ((accessData addr st).cache.getD (setIndexOf st.s st.b addr) [])).ev } := rfl
  rw [key, hgetD, accessSet_headHit st.E (tagOf st.s st.b addr)
    (CacheLine.mk true (tagOf st.s st.b addr)) r rfl rfl]
  show ({ accessData addr st with
      cache := (accessData addr st).cache.set (setIndexOf st.s st.b addr)
        (CacheLine.mk true (tagOf st.s st.b addr) :: r),
      hit_count := (accessData addr st).hit_count + 1,
      miss_count := (accessData addr st).miss_count + 0,
      eviction_count := (accessData addr st).eviction_count + 0 } : SimState) = _
  rw [← hgetD, set_getD_self _ _ _ hidx2]
  simp

/-- Witness for C6 at a concrete state and address. -/
theorem modify_second_access_hits_witness :
    accessData 0 (accessData 0 (initState 1 1 1)) =
      { accessData 0 (initState 1 1 1) with
        hit_count := (accessData 0 (initState 1 1 1)).hit_count + 1 } :=
  modify_second_access_hits (initState 1 1 1) 0 (by decide) (by decide)

/-- C7: starting from a fresh cache, `E` distinct-tag addresses mapping to
one set give `E` misses and no eviction; one further distinct address on the
same set gives exactly one more miss and one eviction, and the evicted line
is the least recently touched of the original `E` (the first accessed): the
final recency list is the new tag followed by the previous list minus its
tail element. -/
theorem capacity_triggered_eviction (s b E : Nat) (hE : 1 ≤ E) (as : List Nat)
    (a' : Nat) (hlen : as.length = E)
    (hsame : ∀ a ∈ as, setIndexOf s b a = setIndexOf s b a')
    (hnd : (as.map fun a => tagOf s b a).Nodup)
    (hdiff : ∀ a ∈ as, tagOf s b a ≠ tagOf s b a') :
    (runAccesses as (initState s b E)).miss_count = E ∧
    (runAccesses as (initState s b E)).hit_count = 0 ∧
    (runAccesses as (initState s b E)).eviction_count = 0 ∧
    (accessData a' (runAccesses as (initState s b E))).miss_count = E + 1 ∧
    (accessData a' (runAccesses as (initState s b E))).hit_count = 0 ∧
    (accessData a' (runAccesses as (initState s b E))).eviction_count = 1 ∧
    validTags ((accessData a' (runAccesses as (initState s b E))).cache.getD
        (setIndexOf s b a') []) =
      tagOf s b a' :: ((as.map fun a => tagOf s b a).reverse).dropLast := by
  have hg0 := initState_good s b E hE
  have hinit : validTags ((initState s b E).cache.getD (setIndexOf s b a') []) = [] := by
    show validTags ((initCache s E).getD (setIndexOf s b a') []) = []
    rw [getD_initCache s E _ (setIndexOf_lt s b a'), validTags_initSet]
  obtain ⟨htags1, hhit1, hmiss1, hev1⟩ := fill_distinct_aux s b E hE
    (setIndexOf s b a') as (initState s b E) [] hg0 hsame hnd
    (fun a _ => List.not_mem_nil _) hinit (by simp [hlen])
  rw [List.append_nil] at htags1
  have hg1 := runAccesses_good s b E as (initState s b E) hg0 hE
  obtain ⟨hs1, hb1, hE1, hclen1, hsets1⟩ := hg1
  have hidx1 : setIndexOf s b a' < (runAccesses as (initState s b E)).cache.length := by
    rw [hclen1]
    exact setIndexOf_lt s b a'
  have hinv1 : SetInv (runAccesses as (initState s b E)).E
      ((runAccesses as (initState s b E)).cache.getD
        (setIndexOf (runAccesses as (initState s b E)).s
          (runAccesses as (initState s b E)).b a') []) := by
    rw [hs1, hb1, hE1]
    exact hsets1 _ (getD_mem _ _ [] hidx1)
  have hstep := accessData_lru (runAccesses as (initState s b E)) a' hinv1
    (by rw [hE1]; exact hE)
  rw [hs1, hb1, hE1, htags1] at hstep
  have hnotin : tagOf s b a' ∉ (as.map fun a => tagOf s b a).reverse := by
    intro hmem
    obtain ⟨a, ha, hta⟩ := List.mem_map.mp (List.mem_reverse.mp hmem)
    exact hdiff a ha hta
  have hfull : ¬((as.map fun a => tagOf s b a).reverse.length < E) := by
    rw [List.length_reverse, List.length_map, hlen]
    omega
  rw [lruSpecStep, if_neg hnotin, if_neg hfull] at hstep
  have hmiss0 : (initState s b E).miss_count = 0 := rfl
  have hhit0 : (initState s b E).hit_count = 0 := rfl
  have hev0 : (initState s b E).eviction_count = 0 := rfl
  refine ⟨?_, ?_, ?_, ?_, ?_, ?_, ?_⟩
  · rw [hmiss1, hmiss0, hlen]
    omega
  · rw [hhit1, hhit0]
  · rw [hev1, hev0]
  · rw [hstep.2.2.1, hmiss1, hmiss0, hlen]
    show 0 + E + 1 = E + 1
    omega
  · rw [hstep.2.1, hhit1, hhit0]
    rfl
  · rw [hstep.2.2.2, hev1, hev0]
    rfl
  · exact hstep.1

/-- Witness for C7 with `E = 2`, one set, tags 1, 2 then 3. -/
theorem capacity_triggered_eviction_witness :
    (runAccesses [1, 2] (initState 0 0 2)).miss_count = 2 ∧
    (runAccesses [1, 2] (initState 0 0 2)).hit_count = 0 ∧
    (runAccesses [1, 2] (initState 0 0 2)).eviction_count = 0 ∧
    (accessData 3 (runAccesses [1, 2] (initState 0 0 2))).miss_count = 2 + 1 ∧
    (accessData 3 (runAccesses [1, 2] (initState 0 0 2))).hit_count = 0 ∧
    (accessData 3 (runAccesses [1, 2] (initState 0 0 2))).eviction_count = 1 ∧
    validTags ((accessData 3 (runAccesses [1, 2] (initState 0 0 2))).cache.getD
        (setIndexOf 0 0 3) []) =
      tagOf 0 0 3 :: (([1, 2].map fun a => tagOf 0 0 a).reverse).dropLast :=
  capacity_triggered_eviction 0 0 2 (by decide) [1, 2] 3 (by decide) (by decide)
    (by decide) (by decide)

/-- C8: a trace line is serviced exactly when its second character is `L`,
`S` or `M`: any other line leaves the whole replay state (counters, cache
and the loop-persistent `addr`/`len` variables) unchanged and replay
continues with the next line, while a recognized line parses `buf + 3` and
calls `accessData` once, or twice for `M`. -/
theorem trace_line_dispatch (buf : List Char) (lines : List (List Char))
    (rst : ReplayState) :
    (¬(secondChar buf = 'S' ∨ secondChar buf = 'L' ∨ secondChar buf = 'M') →
      replayLine buf rst = rst ∧
      replayTrace (buf :: lines) rst = replayTrace lines rst) ∧
    ((secondChar buf = 'S' ∨ secondChar buf = 'L' ∨ secondChar buf = 'M') →
      replayLine buf rst =
        ⟨(if secondChar buf = 'M'
            then accessData (sscanfAddrLen (buf.drop 3) rst.addr rst.len).1
              (accessData (sscanfAddrLen (buf.drop 3) rst.addr rst.len).1 rst.sim)
            else accessData (sscanfAddrLen (buf.drop 3) rst.addr rst.len).1 rst.sim),
          (sscanfAddrLen (buf.drop 3) rst.addr rst.len).1,
          (sscanfAddrLen (buf.drop 3) rst.addr rst.len).2⟩) := by
  constructor
  · intro h
    have h1 : replayLine buf rst = rst := by rw [replayLine_eq, if_neg h]
    refine ⟨h1, ?_⟩
    show replayTrace lines (replayLine buf rst) = replayTrace lines rst
    rw [h1]
  · intro h
    rw [replayLine_eq, if_pos h]

/-- Witness for C8: an instruction-fetch line is skipped with no state
change. -/
theorem trace_line_dispatch_witness :
    replayLine ['I', ' ', '1', ',', '1'] (initReplay 1 1 1) = initReplay 1 1 1 ∧
    replayTrace [['I', ' ', '1', ',', '1']] (initReplay 1 1 1) =
      replayTrace [] (initReplay 1 1 1) :=
  (trace_line_dispatch ['I', ' ', '1', ',', '1'] [] (initReplay 1 1 1)).1 (by decide)

/-- C9: one access mutates at most the targeted set and the counters: the
geometry fields `s`, `b`, `E`, `S`, the number of sets, and every other
set's line list (valid bits, tags and recency order) are unchanged. -/
theorem accessData_frame (st : SimState) (addr : Nat) :
    (accessData addr st).s = st.s ∧ (accessData addr st).b = st.b ∧
    (accessData addr st).E = st.E ∧ (accessData addr st).S = st.S ∧
    (accessData addr st).cache.length = st.cache.length ∧
    ∀ j, j ≠ setIndexOf st.s st.b addr →
      (accessData addr st).cache.getD j [] = st.cache.getD j [] := by
  refine ⟨accessData_s addr st, accessData_b addr st, accessData_E addr st,
    accessData_S addr st, by simp [accessData], ?_⟩
  intro j hj
  simp only [accessData]
  exact getD_set_ne st.cache _ [] (Ne.symm hj)

/-- Witness for C9: the untouched second set of a concrete two-set cache. -/
theorem accessData_frame_witness :
    (accessData 0 (initState 1 1 1)).cache.getD 1 [] =
      (initState 1 1 1).cache.getD 1 [] :=
  (accessData_frame (initState 1 1 1) 0).2.2.2.2.2 1 (by decide)

/-- C10: an invalid line never produces a hit even when its stored tag
(0 after `initCache`) equals the access's tag: an access with tag 0 against
a set of only invalid lines is counted as a miss, not a hit. -/
theorem invalid_line_never_hits (st : SimState) (addr : Nat)
    (hall : ∀ l ∈ st.cache.getD (setIndexOf st.s st.b addr) [], l.valid = false)
    (hlen : (st.cache.getD (setIndexOf st.s st.b addr) []).length = st.E)
    (hE : 1 ≤ st.E) (htag : tagOf st.s st.b addr = 0) :
    (accessData addr st).miss_count = st.miss_count + 1 ∧
    (accessData addr st).hit_count = st.hit_count := by
  cases hset : st.cache.getD (setIndexOf st.s st.b addr) [] with
  | nil =>
    rw [hset] at hlen
    simp at hlen
    omega
  | cons l rest =>
    rw [hset] at hall
    have hl : l.valid = false := hall l (List.mem_cons_self l rest)
    have haset : accessSet st.E (tagOf st.s st.b addr) (l :: rest) =
        ⟨CacheLine.mk true (tagOf st.s st.b addr) :: rest, 0, 1, 0⟩ := by
      rw [accessSet_missPath st.E (tagOf st.s st.b addr) l rest ?_,
        missInsert_invalidHead (tagOf st.s st.b addr) l rest hl]
      intro x hx hv _
      rw [hall x hx] at hv
      exact Bool.false_ne_true hv
    simp only [accessData]
    rw [hset, haset]
    exact ⟨rfl, rfl⟩

/-- Witness for C10 on the fresh cache, whose lines are invalid with tag 0,
accessed at address 0 (tag 0). -/
theorem invalid_line_never_hits_witness :
    (accessData 0 (initState 1 1 1)).miss_count = (initState 1 1 1).miss_count + 1 ∧
    (accessData 0 (initState 1 1 1)).hit_count = (initState 1 1 1).hit_count :=
  invalid_line_never_hits (initState 1 1 1) 0 (by decide) (by decide) (by decide)
    (by decide)
